import Mathlib

/-!
Verification of the bookmark-catalog core of `src/index.tsx` (an AI bookmark
manager): import with URL dedup (`parseBookmarksHTML`), the batched enrichment
pipeline (`processUnprocessedBookmarks`), deletion (`deleteBookmark`), and the
derived query layer (`categories`, `filteredBookmarks`).  Each definition is a
shallow embedding of the correspondingly named piece of the source; timestamps
are `Nat`, JS `undefined`-able fields are `Option`, and the untyped service
response is modelled by `CallOutcome`/`RawBody` below.
-/

set_option maxHeartbeats 1000000

/-- The `BookmarkItem` interface of the source: `description`, `category` and
`tags` are optional (absent until enrichment), `processed` is the enrichment
flag, `addedAt` a timestamp. -/
structure BookmarkItem where
  id : String
  title : String
  url : String
  description : Option String
  category : Option String
  tags : Option (List String)
  processed : Bool
  addedAt : Nat
deriving DecidableEq

/-- One raw anchor as produced by the DOM parse in `parseBookmarksHTML`,
together with the `generateId()` value and `Date.now()` timestamp the source
attaches at that point (both are environment inputs, so they are data here).
`title` is the anchor's `textContent` with `null` collapsed to `""`. -/
structure Candidate where
  id : String
  title : String
  url : String
  addedAt : Nat
deriving DecidableEq

/-- Builds the `BookmarkItem` literal of `parseBookmarksHTML`:
`title: link.textContent || "Untitled"`, `processed: false`, enrichment fields
absent. -/
def mkImportEntry (c : Candidate) : BookmarkItem :=
  { id := c.id
    title := if c.title = "" then "Untitled" else c.title
    url := c.url
    description := none
    category := none
    tags := none
    processed := false
    addedAt := c.addedAt }

/-- `parseBookmarksHTML` (src/index.tsx lines 92-112): take the first 50
anchors, wrap each into a fresh unprocessed entry, drop those whose `url`
already occurs in the catalog, and append the rest. -/
def parseBookmarksHTML (bookmarks : List BookmarkItem) (links : List Candidate) :
    List BookmarkItem :=
  let newBookmarks := (links.take 50).map mkImportEntry
  let uniqueNewBookmarks :=
    newBookmarks.filter fun b => ! bookmarks.any fun e => e.url == b.url
  bookmarks ++ uniqueNewBookmarks

/-- `deleteBookmark` (src/index.tsx lines 198-200):
`setBookmarks(prev => prev.filter(b => b.id !== id))`. -/
def deleteBookmark (bookmarks : List BookmarkItem) (x : String) : List BookmarkItem :=
  bookmarks.filter fun b => b.id != x

/-- One item of the parsed service response.  Every field is optional: the
source casts the parsed JSON with `as { items: any[] }`, so nothing guarantees
the fields are present. -/
structure RespItem where
  url : Option String
  category : Option String
  description : Option String
  tags : Option (List String)
deriving DecidableEq

/-- One element of a parsed `items` array, as the `forEach` body of lines
173-185 sees it: `nullElem` is the JSON literal `null` (reading
`processedItem.url` from it throws a TypeError), and `item it` is any other
JSON value, represented by its `url`/`category`/`description`/`tags` member
projections (each `none` when the member is absent or the value is not an
object — such an element merges nothing but raises no error). -/
inductive RespElem where
  | nullElem
  | item (it : RespItem)
deriving DecidableEq

/-- Is this element the JSON literal `null`? -/
def RespElem.isNull : RespElem → Bool
  | .nullElem => true
  | .item _ => false

/-- The member projections of a non-null element. -/
def RespElem.toItem : RespElem → Option RespItem
  | .nullElem => none
  | .item it => some it

/-- The `items` member of a parsed non-null JSON body, as
`result.items?.forEach` (line 173) distinguishes it: `nullish` when the
member is absent, `null` or `undefined` (the optional chaining
short-circuits and nothing is merged), `notArray` when it is any other
non-array value (`result.items.forEach` is not a function, so the call
throws), and `array elems` when it is an array. -/
inductive ItemsField where
  | nullish
  | notArray
  | array (elems : List RespElem)
deriving DecidableEq

/-- The body of a service response as
`JSON.parse(response.text || "{\"items\": []}") as { items: any[] }`
(line 170) and the following merge see it: `absent` models a falsy
`response.text` (the source substitutes the literal empty-items default),
`invalid` a present body on which `JSON.parse` throws, `nullBody` a body
that parses to the JSON literal `null` (reading `result.items` from it
throws), and `parsed items` any other parsed value with the given `items`
member. -/
inductive RawBody where
  | absent
  | invalid
  | nullBody
  | parsed (items : ItemsField)
deriving DecidableEq

/-- Outcome of one `ai.models.generateContent` invocation: the call itself may
throw (`thrown`), otherwise it yields a response body. -/
inductive CallOutcome where
  | thrown
  | body (b : RawBody)
deriving DecidableEq

/-- What one batch's invocation amounts to once lines 170-185 have run:
`none` means an exception reaches the run-level `catch` — the service call
threw, `JSON.parse` threw, `result.items` was read from a `null` body,
`forEach` was called on a non-array `items`, or `processedItem.url` was read
from a `null` array element; `some items` means the merge loop runs over the
member projections `items` of the array's non-null elements (the absent-body
default and a nullish `items` member both merge nothing).  A `null` element
aborts the batch mid-loop before its commit, so the entries merged into the
map ahead of it are never observable — collapsing that case to a plain
abort is faithful. -/
def callItems : CallOutcome → Option (Option (List RespItem))
  | .thrown => none
  | .body .absent => some (some [])
  | .body .invalid => none
  | .body .nullBody => none
  | .body (.parsed .nullish) => some none
  | .body (.parsed .notArray) => none
  | .body (.parsed (.array elems)) =>
    if elems.any RespElem.isNull then none
    else some (some (elems.filterMap RespElem.toItem))

/-- The merged entry of lines 177-183: spread of the original with
`processed: true` and the three enrichment fields copied from the response
item (copied verbatim, even when absent). -/
def mergeEntry (original : BookmarkItem) (item : RespItem) : BookmarkItem :=
  { original with
    processed := true
    category := item.category
    description := item.description
    tags := item.tags }

/-- JS `Map.set` on an insertion-ordered association list: an existing key is
updated in place, a new key is appended. -/
def mapSet (m : List (String × BookmarkItem)) (k : String) (v : BookmarkItem) :
    List (String × BookmarkItem) :=
  if m.any fun p => p.1 == k then
    m.map fun p => if p.1 == k then (k, v) else p
  else m ++ [(k, v)]

/-- `new Map(bookmarks.map(b => [b.id, b]))` (line 127). -/
def mapOf (bookmarks : List BookmarkItem) : List (String × BookmarkItem) :=
  bookmarks.foldl (fun m b => mapSet m b.id b) []

/-- `Array.from(map.values())` (line 188). -/
def mapValues (m : List (String × BookmarkItem)) : List BookmarkItem :=
  m.map Prod.snd

/-- The `result.items?.forEach` merge of lines 173-185: for each response item
find the first batch entry with the same `url` (strict equality, so an absent
`url` matches nothing) and overwrite its map slot with the merged entry. -/
def mergeBatch (m : List (String × BookmarkItem)) (batch : List BookmarkItem)
    (items : List RespItem) : List (String × BookmarkItem) :=
  items.foldl
    (fun acc item =>
      match batch.find? (fun b => item.url == some b.url) with
      | some original => mapSet acc original.id (mergeEntry original item)
      | none => acc)
    m

/-- The batching loop of lines 121-125 (`for (i = 0; i < n; i += 10)
batches.push(unprocessed.slice(i, i + 10))`), written with a fuel argument so
that it is structurally recursive; `buildBatches` supplies fuel `l.length`,
which is always enough because each round consumes at least one element. -/
def buildBatchesFuel : Nat → List BookmarkItem → List (List BookmarkItem)
  | _, [] => []
  | 0, _ :: _ => []
  | fuel + 1, b :: rest =>
    ((b :: rest).take 10) :: buildBatchesFuel fuel ((b :: rest).drop 10)

/-- The batch list the source builds from the unprocessed entries. -/
def buildBatches (l : List BookmarkItem) : List (List BookmarkItem) :=
  buildBatchesFuel l.length l

/-- `bookmarks.filter(b => !b.processed)` (line 115). -/
def unprocessedOf (bookmarks : List BookmarkItem) : List BookmarkItem :=
  bookmarks.filter fun b => ! b.processed

/-- The batches of one run over the given catalog. -/
def batchesOf (bookmarks : List BookmarkItem) : List (List BookmarkItem) :=
  buildBatches (unprocessedOf bookmarks)

/-- The `for (const batch of batches)` loop of lines 130-189, started at call
index `i` over the remaining batches with the current `updatedBookmarksMap`.
Returns the list of per-batch committed catalog snapshots (each one the
`setBookmarks(Array.from(map.values()))` of line 188), the number of service
invocations made, and whether the run-level `catch` fired. -/
def runLoop (resps : Nat → CallOutcome) :
    Nat → List (List BookmarkItem) → List (String × BookmarkItem) →
    List (List BookmarkItem) × Nat × Bool
  | _, [], _ => ([], 0, false)
  | i, batch :: rest, m =>
    match callItems (resps i) with
    | none => ([], 1, true)
    | some optItems =>
      let m2 := mergeBatch m batch (optItems.getD [])
      let r := runLoop resps (i + 1) rest m2
      (mapValues m2 :: r.1, r.2.1 + 1, r.2.2)

/-- The observable outcome of one `processUnprocessedBookmarks` run:
the final catalog (the last committed snapshot, or the starting catalog when
nothing was committed), all per-batch commits in order, the number of service
calls, and whether the catch/alert path ran. -/
structure RunResult where
  catalog : List BookmarkItem
  commits : List (List BookmarkItem)
  calls : Nat
  failed : Bool
deriving DecidableEq

/-- Number of `alert` notifications the run surfaces: the single catch block
at lines 190-192 alerts once for the whole run. -/
def alertCount (failed : Bool) : Nat := if failed then 1 else 0

/-- `processUnprocessedBookmarks` (src/index.tsx lines 114-196), with the
sequence of service-call outcomes as an oracle argument.  Mirrors the early
return on an empty unprocessed list (no batches, no call), the snapshot map
built from the whole catalog, and the per-batch commit loop. -/
def processUnprocessedBookmarks (bookmarks : List BookmarkItem)
    (resps : Nat → CallOutcome) : RunResult :=
  let unprocessed := bookmarks.filter fun b => ! b.processed
  if unprocessed.isEmpty then
    { catalog := bookmarks, commits := [], calls := 0, failed := false }
  else
    let batches := buildBatches unprocessed
    let r := runLoop resps 0 batches (mapOf bookmarks)
    { catalog := r.1.getLast?.getD bookmarks
      commits := r.1
      calls := r.2.1
      failed := r.2.2 }

/-- The catalog the user observes at the end of a run during which they
deleted entry `delId` after the run captured its `updatedBookmarksMap`
snapshot and before the first per-batch commit.  The delete rewrites the live
list (`setBookmarks(prev => prev.filter(...))`), but every subsequent commit
replaces the live list wholesale with `Array.from(map.values())`, a value
computed only from the pre-run snapshot and the responses; so as soon as at
least one commit follows the delete, the live list is exactly the run's
committed list, and only when the run commits nothing does the delete
survive. -/
def runWithMidDelete (bookmarks : List BookmarkItem) (delId : String)
    (resps : Nat → CallOutcome) : List BookmarkItem :=
  let r := processUnprocessedBookmarks bookmarks resps
  match r.commits with
  | [] => deleteBookmark bookmarks delId
  | _ :: _ => r.catalog

/-- JS truthiness test `!b.category`: true for an absent and for an empty
category. -/
def catFalsy : Option String → Bool
  | none => true
  | some c => c == ""

/-- One step of the category accumulation of lines 204-207
(`if (b.category) cats.add(b.category)` on an insertion-ordered set): a truthy
category value is appended unless already present. -/
def addCat (acc : List String) (b : BookmarkItem) : List String :=
  match b.category with
  | some c => if c = "" then acc else if c ∈ acc then acc else acc ++ [c]
  | none => acc

/-- The category accumulation of lines 203-208: insertion-ordered set of the
truthy `category` values. -/
def collectCats (bookmarks : List BookmarkItem) : List String :=
  bookmarks.foldl addCat []

/-- `Array.from(cats).sort()`: default JS sort = lexicographic string order
(modelled with Lean's lexicographic `≤` on strings; insertion sort, but any
sorting algorithm agrees on a duplicate-free list). -/
def sortStrings (l : List String) : List String :=
  List.insertionSort (· ≤ ·) l

/-- `categories` (src/index.tsx lines 203-209):
`["All", ...Array.from(cats).sort(), "Uncategorized"]`. -/
def categories (bookmarks : List BookmarkItem) : List String :=
  "All" :: (sortStrings (collectCats bookmarks) ++ ["Uncategorized"])

/-- Does the character list `hay` start with `pat`? -/
def startsWithChars : List Char → List Char → Bool
  | _, [] => true
  | [], _ :: _ => false
  | h :: hs, p :: ps => (h == p) && startsWithChars hs ps

/-- JS `String.prototype.includes` on character lists. -/
def containsChars : List Char → List Char → Bool
  | [], pat => pat.isEmpty
  | h :: t, pat => startsWithChars (h :: t) pat || containsChars t pat

/-- `s.toLowerCase()` as a character list (ASCII lowering, which covers the
alphabet the source's data uses). -/
def lowerStr (s : String) : List Char :=
  s.data.map Char.toLower

/-- `a.toLowerCase().includes(b.toLowerCase())`. -/
def containsCI (hay q : String) : Bool :=
  containsChars (lowerStr hay) (lowerStr q)

/-- The `matchesSearch` expression of lines 213-217: the query matches the
lowered title, or the lowered description when present, or some lowered tag
when tags are present. -/
def matchesSearch (b : BookmarkItem) (q : String) : Bool :=
  containsCI b.title q ||
  (match b.description with
   | some d => containsCI d q
   | none => false) ||
  (match b.tags with
   | some ts => ts.any fun t => containsCI t q
   | none => false)

/-- The `matchesCategory` ternary of lines 219-223. -/
def matchesCategory (b : BookmarkItem) (fc : String) : Bool :=
  if fc = "All" then true
  else if fc = "Uncategorized" then catFalsy b.category
  else b.category == some fc

/-- `filteredBookmarks` (src/index.tsx lines 211-227). -/
def filteredBookmarks (bookmarks : List BookmarkItem) (searchQuery fc : String) :
    List BookmarkItem :=
  bookmarks.filter fun b => matchesSearch b searchQuery && matchesCategory b fc

/-- The urls of a catalog, in order. -/
def urlsOf (s : List BookmarkItem) : List String :=
  s.map BookmarkItem.url

/-- Catalog states reachable from the empty catalog by the three mutators of
the source — import, per-batch enrichment commit, delete — where the imports
are restricted by `impOk` and the pipeline runs by `respOk`.  Because every
per-batch commit replaces the live list wholesale with a value computed only
from the pre-run snapshot and the responses, the states of a run interleaved
with deletes are exactly commit states and deletions of commit states, so
this relation covers all interleavings. -/
inductive Reach (impOk : List Candidate → Prop) (respOk : (Nat → CallOutcome) → Prop) :
    List BookmarkItem → Prop where
  | start : Reach impOk respOk []
  | imp (s : List BookmarkItem) (cands : List Candidate) :
      Reach impOk respOk s → impOk cands →
      Reach impOk respOk (parseBookmarksHTML s cands)
  | commit (s c : List BookmarkItem) (resps : Nat → CallOutcome) :
      Reach impOk respOk s → respOk resps →
      c ∈ (processUnprocessedBookmarks s resps).commits →
      Reach impOk respOk c
  | del (s : List BookmarkItem) (x : String) :
      Reach impOk respOk s → Reach impOk respOk (deleteBookmark s x)

/-- No restriction on imports. -/
def AnyImport : List Candidate → Prop := fun _ => True

/-- No restriction on responses. -/
def AnyResp : (Nat → CallOutcome) → Prop := fun _ => True

/-- The candidates an import actually consumes (its first 50 anchors) carry
pairwise-distinct urls. -/
def DistinctImport (cands : List Candidate) : Prop :=
  ((cands.take 50).map Candidate.url).Nodup

/-- Every successfully parsed response item carries a non-empty category,
a non-empty description and a non-empty tag list. -/
def CompleteResp (resps : Nat → CallOutcome) : Prop :=
  ∀ i items, callItems (resps i) = some (some items) →
    ∀ item ∈ items,
      (∃ c, item.category = some c ∧ c ≠ "") ∧
      (∃ d, item.description = some d ∧ d ≠ "") ∧
      (∃ ts, item.tags = some ts ∧ ts ≠ [])

/-- An entry whose three enrichment fields are all present and non-empty. -/
def EntryComplete (b : BookmarkItem) : Prop :=
  (∃ c, b.category = some c ∧ c ≠ "") ∧
  (∃ d, b.description = some d ∧ d ≠ "") ∧
  (∃ ts, b.tags = some ts ∧ ts ≠ [])

/-- Every processed entry of the catalog is completely enriched. -/
def CatalogComplete (s : List BookmarkItem) : Prop :=
  ∀ b ∈ s, b.processed = true → EntryComplete b

/-- Spec-side facet predicate (from §4.5 of the spec): "All" matches
everything, "Uncategorized" matches entries with no category (the spec counts
only non-empty values as categories, so an empty-string category is "no
category"), any other facet matches exact category equality. -/
def FacetMatches (b : BookmarkItem) (fc : String) : Prop :=
  if fc = "All" then True
  else if fc = "Uncategorized" then b.category = none ∨ b.category = some ""
  else b.category = some fc

/-- Spec-side query predicate (from §4.5 of the spec): the query is empty, or
case-insensitively contained in the title, or in the description when
present, or in some tag when tags are present. -/
def QueryMatches (b : BookmarkItem) (q : String) : Prop :=
  q = "" ∨ containsCI b.title q = true ∨
  (∃ d, b.description = some d ∧ containsCI d q = true) ∨
  (∃ ts, b.tags = some ts ∧ ∃ t ∈ ts, containsCI t q = true)

example :
    parseBookmarksHTML [] [⟨"a", "t", "u", 0⟩, ⟨"b", "t", "u", 0⟩] =
      [⟨"a", "t", "u", none, none, none, false, 0⟩,
       ⟨"b", "t", "u", none, none, none, false, 0⟩] := by decide

example :
    (processUnprocessedBookmarks
      [⟨"a", "t", "u", none, none, none, false, 0⟩]
      (fun _ => .body (.parsed (.array
        [.item ⟨some "u", some "Frontend", some "d", some ["x"]⟩])))).catalog =
      [⟨"a", "t", "u", some "d", some "Frontend", some ["x"], true, 0⟩] := by decide

/-! ### Basic facts about the embedded operations -/

theorem parseBookmarksHTML_eq (bs : List BookmarkItem) (links : List Candidate) :
    parseBookmarksHTML bs links =
      bs ++ ((links.take 50).map mkImportEntry).filter
        (fun b => ! bs.any fun e => e.url == b.url) := rfl

theorem containsChars_nil (hay : List Char) : containsChars hay [] = true := by
  cases hay <;> simp [containsChars, startsWithChars]

theorem containsCI_empty (s : String) : containsCI s "" = true := by
  have h : lowerStr "" = [] := rfl
  rw [containsCI, h, containsChars_nil]

theorem buildBatchesFuel_nil (f : Nat) : buildBatchesFuel f [] = [] := by
  cases f <;> rfl

theorem buildBatchesFuel_flatten (f : Nat) (l : List BookmarkItem) (h : l.length ≤ f) :
    (buildBatchesFuel f l).flatten = l := by
  induction f generalizing l with
  | zero =>
    cases l with
    | nil => rfl
    | cons b rest => simp at h
  | succ f ih =>
    cases l with
    | nil => rfl
    | cons b rest =>
      have hlen : ((b :: rest).drop 10).length ≤ f := by
        rw [List.length_drop]
        simp only [List.length_cons] at h ⊢
        omega
      rw [buildBatchesFuel, List.flatten_cons, ih _ hlen, List.take_append_drop]

theorem buildBatches_flatten (l : List BookmarkItem) : (buildBatches l).flatten = l :=
  buildBatchesFuel_flatten l.length l le_rfl

theorem buildBatchesFuel_length (f : Nat) (l : List BookmarkItem) (h : l.length ≤ f) :
    (buildBatchesFuel f l).length = (l.length + 9) / 10 := by
  induction f generalizing l with
  | zero =>
    cases l with
    | nil => rfl
    | cons b rest => simp at h
  | succ f ih =>
    cases l with
    | nil => rfl
    | cons b rest =>
      have hlen : ((b :: rest).drop 10).length ≤ f := by
        rw [List.length_drop]
        simp only [List.length_cons] at h ⊢
        omega
      have hrec := ih _ hlen
      rw [List.length_drop] at hrec
      rw [buildBatchesFuel, List.length_cons, hrec]
      simp only [List.length_cons]
      omega

theorem buildBatchesFuel_sizes (f : Nat) (l : List BookmarkItem) (h : l.length ≤ f) :
    ∀ b ∈ buildBatchesFuel f l, 0 < b.length ∧ b.length ≤ 10 := by
  induction f generalizing l with
  | zero =>
    cases l with
    | nil => intro b hb; simp [buildBatchesFuel] at hb
    | cons x rest => simp at h
  | succ f ih =>
    cases l with
    | nil => intro b hb; simp [buildBatchesFuel] at hb
    | cons x rest =>
      have hlen : ((x :: rest).drop 10).length ≤ f := by
        rw [List.length_drop]
        simp only [List.length_cons] at h ⊢
        omega
      intro b hb
      rw [buildBatchesFuel] at hb
      rcases List.mem_cons.mp hb with rfl | hb2
      · rw [List.length_take]
        simp only [List.length_cons]
        omega
      · exact ih _ hlen b hb2

theorem buildBatchesFuel_ne_nil (f : Nat) {l : List BookmarkItem}
    (h : buildBatchesFuel f l = []) (hf : l.length ≤ f) : l = [] := by
  cases l with
  | nil => rfl
  | cons x rest =>
    cases f with
    | zero => simp at hf
    | succ f => simp [buildBatchesFuel] at h

theorem buildBatchesFuel_dropLast (f : Nat) (l : List BookmarkItem) (h : l.length ≤ f) :
    ∀ b ∈ (buildBatchesFuel f l).dropLast, b.length = 10 := by
  induction f generalizing l with
  | zero =>
    cases l with
    | nil => intro b hb; simp [buildBatchesFuel] at hb
    | cons x rest => simp at h
  | succ f ih =>
    cases l with
    | nil => intro b hb; simp [buildBatchesFuel] at hb
    | cons x rest =>
      have hlen : ((x :: rest).drop 10).length ≤ f := by
        rw [List.length_drop]
        simp only [List.length_cons] at h ⊢
        omega
      intro b hb
      rw [buildBatchesFuel] at hb
      rcases hB : buildBatchesFuel f ((x :: rest).drop 10) with _ | ⟨c, B⟩
      · rw [hB] at hb
        simp at hb
      · rw [hB, List.dropLast_cons_of_ne_nil (by simp)] at hb
        rcases List.mem_cons.mp hb with rfl | hb2
        · have hne : (x :: rest).drop 10 ≠ [] := by
            intro hcon
            rw [hcon, buildBatchesFuel_nil] at hB
            simp at hB
          have hlong : 10 < (x :: rest).length := by
            by_contra hcon
            push_neg at hcon
            exact hne (List.drop_eq_nil_of_le hcon)
          rw [List.length_take]
          omega
        · rw [← hB] at hb2
          exact ih _ hlen b hb2

/-- C10: `deleteBookmark id` removes exactly the entries whose `id` equals the
given id, keeps every other entry unchanged in unchanged relative order, and
leaves the catalog unchanged when no entry has that id (the operation is a
total filter, so no error can be raised). -/
theorem deleteBookmark_frame (bs : List BookmarkItem) (x : String) :
    (∀ b, b ∈ deleteBookmark bs x ↔ b ∈ bs ∧ b.id ≠ x) ∧
    (deleteBookmark bs x).Sublist bs ∧
    ((∀ b ∈ bs, b.id ≠ x) → deleteBookmark bs x = bs) := by
  refine ⟨?_, List.filter_sublist bs, ?_⟩
  · intro b
    simp [deleteBookmark, List.mem_filter]
  · intro h
    apply List.filter_eq_self.mpr
    intro b hb
    simpa using h b hb

theorem deleteBookmark_frame_witness :
    (∀ b ∈ ([⟨"a", "t", "u", none, none, none, false, 0⟩] : List BookmarkItem), b.id ≠ "z") ∧
    deleteBookmark [⟨"a", "t", "u", none, none, none, false, 0⟩] "z" =
      [⟨"a", "t", "u", none, none, none, false, 0⟩] :=
  ⟨by decide, (deleteBookmark_frame _ "z").2.2 (by decide)⟩

/-- C5: the batch scheduler produces exactly ceil(N/10) batches whose
concatenation is the input list in order, every batch except possibly the
last has size 10 (and none is empty or oversized), and a catalog with no
unprocessed entries yields no batches, no service call, and an unchanged
catalog. -/
theorem batchScheduler_spec (l bs : List BookmarkItem) (resps : Nat → CallOutcome) :
    (buildBatches l).length = (l.length + 9) / 10 ∧
    (buildBatches l).flatten = l ∧
    (∀ b ∈ (buildBatches l).dropLast, b.length = 10) ∧
    (∀ b ∈ buildBatches l, 0 < b.length ∧ b.length ≤ 10) ∧
    (l = [] → buildBatches l = []) ∧
    (unprocessedOf bs = [] →
      (processUnprocessedBookmarks bs resps).calls = 0 ∧
      (processUnprocessedBookmarks bs resps).catalog = bs) := by
  refine ⟨buildBatchesFuel_length l.length l le_rfl,
    buildBatches_flatten l,
    buildBatchesFuel_dropLast l.length l le_rfl,
    buildBatchesFuel_sizes l.length l le_rfl,
    ?_, ?_⟩
  · intro h
    rw [h]; rfl
  · intro h
    have h2 : (bs.filter fun b => ! b.processed) = [] := h
    simp [processUnprocessedBookmarks, h2]

theorem batchScheduler_spec_witness :
    ([] : List BookmarkItem) = [] ∧
    unprocessedOf [] = [] ∧
    buildBatches [] = [] ∧
    (processUnprocessedBookmarks [] (fun _ => .thrown)).calls = 0 := by
  refine ⟨rfl, by decide, ?_, ?_⟩
  · exact (batchScheduler_spec [] [] (fun _ => .thrown)).2.2.2.2.1 rfl
  · exact ((batchScheduler_spec [] [] (fun _ => .thrown)).2.2.2.2.2 (by decide)).1

/-! ### The index/query layer: facets and filtered view -/

theorem mem_addCat (acc : List String) (b : BookmarkItem) (x : String) :
    x ∈ addCat acc b ↔ x ∈ acc ∨ (x ≠ "" ∧ b.category = some x) := by
  rcases hb : b.category with _ | c
  · simp [addCat, hb]
  · simp only [addCat, hb]
    by_cases h1 : c = ""
    · subst h1
      simp only [if_pos rfl]
      constructor
      · exact Or.inl
      · rintro (h | ⟨hne, hc⟩)
        · exact h
        · exact absurd (Option.some.inj hc).symm hne
    · rw [if_neg h1]
      by_cases h2 : c ∈ acc
      · rw [if_pos h2]
        constructor
        · exact Or.inl
        · rintro (h | ⟨hne, hc⟩)
          · exact h
          · rw [← Option.some.inj hc]; exact h2
      · rw [if_neg h2]
        rw [List.mem_append, List.mem_singleton]
        constructor
        · rintro (h | rfl)
          · exact Or.inl h
          · exact Or.inr ⟨h1, rfl⟩
        · rintro (h | ⟨hne, hc⟩)
          · exact Or.inl h
          · exact Or.inr (Option.some.inj hc).symm

theorem nodup_addCat (acc : List String) (b : BookmarkItem) (h : acc.Nodup) :
    (addCat acc b).Nodup := by
  rcases hb : b.category with _ | c
  · simp only [addCat, hb]; exact h
  · simp only [addCat, hb]
    by_cases h1 : c = ""
    · rw [if_pos h1]; exact h
    · rw [if_neg h1]
      by_cases h2 : c ∈ acc
      · rw [if_pos h2]; exact h
      · rw [if_neg h2]
        rw [List.nodup_append]
        exact ⟨h, List.nodup_singleton c, by
          intro a ha hc
          rw [List.mem_singleton] at hc
          subst hc
          exact h2 ha⟩

theorem foldl_addCat_mem (l : List BookmarkItem) :
    ∀ (acc : List String) (x : String),
      x ∈ l.foldl addCat acc ↔ x ∈ acc ∨ (x ≠ "" ∧ ∃ b ∈ l, b.category = some x) := by
  induction l with
  | nil => intro acc x; simp
  | cons b t ih =>
    intro acc x
    rw [List.foldl_cons, ih, mem_addCat]
    simp only [List.mem_cons]
    constructor
    · rintro ((h | ⟨hne, hc⟩) | ⟨hne, b2, hb2, hc2⟩)
      · exact Or.inl h
      · exact Or.inr ⟨hne, b, Or.inl rfl, hc⟩
      · exact Or.inr ⟨hne, b2, Or.inr hb2, hc2⟩
    · rintro (h | ⟨hne, b2, (rfl | hb2), hc2⟩)
      · exact Or.inl (Or.inl h)
      · exact Or.inl (Or.inr ⟨hne, hc2⟩)
      · exact Or.inr ⟨hne, b2, hb2, hc2⟩

theorem foldl_addCat_nodup (l : List BookmarkItem) :
    ∀ acc : List String, acc.Nodup → (l.foldl addCat acc).Nodup := by
  induction l with
  | nil => intro acc h; exact h
  | cons b t ih =>
    intro acc h
    rw [List.foldl_cons]
    exact ih _ (nodup_addCat acc b h)

theorem collectCats_mem (bs : List BookmarkItem) (x : String) :
    x ∈ collectCats bs ↔ x ≠ "" ∧ ∃ b ∈ bs, b.category = some x := by
  rw [collectCats, foldl_addCat_mem]
  simp

theorem collectCats_nodup (bs : List BookmarkItem) : (collectCats bs).Nodup :=
  foldl_addCat_nodup bs [] List.nodup_nil

/-- C8: the facet list is "All" first, then the distinct non-empty category
values present sorted case-sensitively (strictly increasing in lexicographic
string order), then "Uncategorized" last; and the "Uncategorized" facet (with
an empty query) selects exactly the entries with no category — the source's
`!b.category`, i.e. an absent or empty category — regardless of `processed`. -/
theorem categories_facets_spec (bs : List BookmarkItem) :
    (∃ mid, categories bs = "All" :: (mid ++ ["Uncategorized"]) ∧
      mid.Pairwise (· < ·) ∧
      (∀ x, x ∈ mid ↔ x ≠ "" ∧ ∃ b ∈ bs, b.category = some x)) ∧
    filteredBookmarks bs "" "Uncategorized" = bs.filter fun b => catFalsy b.category := by
  constructor
  · refine ⟨sortStrings (collectCats bs), rfl, ?_, ?_⟩
    · have hs : List.Sorted (· ≤ ·) (sortStrings (collectCats bs)) :=
        List.sorted_insertionSort _ _
      have hperm : (sortStrings (collectCats bs)).Perm (collectCats bs) :=
        List.perm_insertionSort _ _
      have hnd : (sortStrings (collectCats bs)).Nodup :=
        hperm.nodup_iff.mpr (collectCats_nodup bs)
      exact (List.Pairwise.and hs hnd).imp fun h => lt_of_le_of_ne h.1 h.2
    · intro x
      rw [show sortStrings (collectCats bs) = List.insertionSort (· ≤ ·) (collectCats bs) from rfl,
        (List.perm_insertionSort _ _).mem_iff]
      exact collectCats_mem bs x
  · apply List.filter_congr
    intro b _
    have h1 : matchesSearch b "" = true := by
      rw [matchesSearch, containsCI_empty, Bool.true_or, Bool.true_or]
    rw [h1, Bool.true_and, matchesCategory,
      if_neg (by decide : ¬ ("Uncategorized" : String) = "All"), if_pos rfl]

/-- Spec-side lowering of the Boolean search test to the spec's wording. -/
theorem matchesSearch_iff (b : BookmarkItem) (q : String) :
    matchesSearch b q = true ↔ QueryMatches b q := by
  rw [matchesSearch, QueryMatches]
  constructor
  · intro h
    rw [Bool.or_eq_true, Bool.or_eq_true] at h
    rcases h with (h | h) | h
    · exact Or.inr (Or.inl h)
    · right; right; left
      rcases hd : b.description with _ | d
      · rw [hd] at h; cases h
      · rw [hd] at h; exact ⟨d, rfl, h⟩
    · right; right; right
      rcases ht : b.tags with _ | ts
      · rw [ht] at h; cases h
      · rw [ht] at h
        rcases List.any_eq_true.mp h with ⟨t, ht2, h3⟩
        exact ⟨ts, rfl, t, ht2, h3⟩
  · intro h
    rw [Bool.or_eq_true, Bool.or_eq_true]
    rcases h with rfl | h | ⟨d, hd, h⟩ | ⟨ts, ht, t, htm, h⟩
    · exact Or.inl (Or.inl (containsCI_empty b.title))
    · exact Or.inl (Or.inl h)
    · rw [hd]; exact Or.inl (Or.inr h)
    · rw [ht]; exact Or.inr (List.any_eq_true.mpr ⟨t, htm, h⟩)

/-- Spec-side lowering of the Boolean facet test to the spec's wording. -/
theorem matchesCategory_iff (b : BookmarkItem) (fc : String) :
    matchesCategory b fc = true ↔ FacetMatches b fc := by
  rw [matchesCategory, FacetMatches]
  by_cases h1 : fc = "All"
  · rw [if_pos h1, if_pos h1]; simp
  · rw [if_neg h1, if_neg h1]
    by_cases h2 : fc = "Uncategorized"
    · rw [if_pos h2, if_pos h2]
      rcases b.category with _ | c <;> simp [catFalsy]
    · rw [if_neg h2, if_neg h2]
      exact beq_iff_eq

/-- C9: the filtered view returns exactly the catalog entries whose facet
matches ("All" everything, "Uncategorized" the entries with no category, any
other facet exact category equality) and whose query matches (empty query, or
case-insensitive containment in title, description or some tag), preserving
catalog iteration order. -/
theorem filteredBookmarks_spec (bs : List BookmarkItem) (q fc : String) :
    (∀ b, b ∈ filteredBookmarks bs q fc ↔ b ∈ bs ∧ FacetMatches b fc ∧ QueryMatches b q) ∧
    (filteredBookmarks bs q fc).Sublist bs := by
  refine ⟨?_, List.filter_sublist bs⟩
  intro b
  rw [filteredBookmarks, List.mem_filter, Bool.and_eq_true, matchesSearch_iff,
    matchesCategory_iff]
  tauto

/-! ### Import: dedup against the existing catalog -/

theorem urlsOf_mkImport (cs : List Candidate) :
    urlsOf (cs.map mkImportEntry) = cs.map Candidate.url := by
  rw [urlsOf, List.map_map]
  rfl

theorem mem_parse_url (bs : List BookmarkItem) (links : List Candidate)
    (c : Candidate) (hc : c ∈ links.take 50) :
    ∃ e ∈ parseBookmarksHTML bs links, e.url = c.url := by
  by_cases h : ∃ e ∈ bs, e.url = c.url
  · rcases h with ⟨e, he, heq⟩
    exact ⟨e, by rw [parseBookmarksHTML_eq]; exact List.mem_append_left _ he, heq⟩
  · push_neg at h
    refine ⟨mkImportEntry c, ?_, rfl⟩
    rw [parseBookmarksHTML_eq]
    apply List.mem_append_right
    apply List.mem_filter.mpr
    refine ⟨List.mem_map_of_mem _ hc, ?_⟩
    rw [Bool.not_eq_true']
    rw [Bool.eq_false_iff]
    intro hany
    rcases List.any_eq_true.mp hany with ⟨e, he, heq⟩
    exact h e he (beq_iff_eq.mp heq)

theorem parse_idem (bs : List BookmarkItem) (links : List Candidate) :
    parseBookmarksHTML (parseBookmarksHTML bs links) links =
      parseBookmarksHTML bs links := by
  have hnil : ((links.take 50).map mkImportEntry).filter
      (fun b => ! (parseBookmarksHTML bs links).any fun e => e.url == b.url) = [] := by
    rw [List.filter_eq_nil_iff]
    intro b hb
    rcases List.mem_map.mp hb with ⟨c, hc, rfl⟩
    rcases mem_parse_url bs links c hc with ⟨e, he, heq⟩
    rw [Bool.not_eq_true', Bool.not_eq_false]
    exact List.any_eq_true.mpr ⟨e, he, beq_iff_eq.mpr heq⟩
  rw [parseBookmarksHTML_eq (parseBookmarksHTML bs links) links, hnil, List.append_nil]

theorem parse_nil (links : List Candidate) :
    parseBookmarksHTML [] links = (links.take 50).map mkImportEntry := by
  rw [parseBookmarksHTML_eq]
  rw [List.nil_append]
  apply List.filter_eq_self.mpr
  intro b _
  rfl

/-- C6 (amended): importing the same source twice is inert the second time —
the second import appends nothing, unconditionally: for any starting catalog
and any source, including one that repeats a url — and, when the source's
consumed candidates (its first 50 anchors) carry pairwise distinct urls,
importing the source twice into the empty catalog yields each of its urls
exactly once.  (Without the distinctness proviso the first import already
duplicates a repeated url, since candidates are only checked against the
pre-existing catalog.) -/
theorem import_twice_spec (bs : List BookmarkItem) (links : List Candidate) :
    parseBookmarksHTML (parseBookmarksHTML bs links) links = parseBookmarksHTML bs links ∧
    (((links.take 50).map Candidate.url).Nodup →
      ∀ u, (urlsOf (parseBookmarksHTML (parseBookmarksHTML [] links) links)).count u =
        if u ∈ (links.take 50).map Candidate.url then 1 else 0) := by
  refine ⟨parse_idem bs links, ?_⟩
  intro h u
  rw [parse_idem, parse_nil, urlsOf_mkImport]
  by_cases hm : u ∈ (links.take 50).map Candidate.url
  · rw [if_pos hm]
    exact List.count_eq_one_of_mem h hm
  · rw [if_neg hm]
    exact List.count_eq_zero_of_not_mem hm

theorem import_twice_spec_witness :
    ((([⟨"a", "t1", "u1", 0⟩, ⟨"b", "t2", "u2", 0⟩] : List Candidate).take 50).map
      Candidate.url).Nodup ∧
    (urlsOf (parseBookmarksHTML
        (parseBookmarksHTML [] [⟨"a", "t1", "u1", 0⟩, ⟨"b", "t2", "u2", 0⟩])
        [⟨"a", "t1", "u1", 0⟩, ⟨"b", "t2", "u2", 0⟩])).count "u1" = 1 ∧
    parseBookmarksHTML
        (parseBookmarksHTML [] [⟨"x", "t", "u", 0⟩, ⟨"y", "t", "u", 0⟩])
        [⟨"x", "t", "u", 0⟩, ⟨"y", "t", "u", 0⟩] =
      parseBookmarksHTML [] [⟨"x", "t", "u", 0⟩, ⟨"y", "t", "u", 0⟩] :=
  ⟨by decide,
    ((import_twice_spec [] _).2 (by decide) "u1").trans (by decide),
    (import_twice_spec [] [⟨"x", "t", "u", 0⟩, ⟨"y", "t", "u", 0⟩]).1⟩

/-- C6 counterexample: a source repeating the url "u" imports it twice even
into the empty catalog — the dedup checks candidates only against the
pre-existing catalog, never against each other — so the claim's "each
distinct url exactly once" fails. -/
theorem import_twice_counterexample :
    (urlsOf (parseBookmarksHTML
        (parseBookmarksHTML [] [⟨"a", "t", "u", 0⟩, ⟨"b", "t", "u", 0⟩])
        [⟨"a", "t", "u", 0⟩, ⟨"b", "t", "u", 0⟩])).count "u" = 2 := by decide

/-! ### The run loop: abort behaviour -/

theorem processUnprocessedBookmarks_of_isEmpty {bs : List BookmarkItem}
    {resps : Nat → CallOutcome} (he : (bs.filter fun b => ! b.processed).isEmpty) :
    processUnprocessedBookmarks bs resps =
      { catalog := bs, commits := [], calls := 0, failed := false } := by
  rw [processUnprocessedBookmarks]
  simp only [he, if_true]

theorem processUnprocessedBookmarks_of_ne {bs : List BookmarkItem}
    {resps : Nat → CallOutcome} (he : ¬ (bs.filter fun b => ! b.processed).isEmpty = true) :
    processUnprocessedBookmarks bs resps =
      { catalog := (runLoop resps 0 (batchesOf bs) (mapOf bs)).1.getLast?.getD bs
        commits := (runLoop resps 0 (batchesOf bs) (mapOf bs)).1
        calls := (runLoop resps 0 (batchesOf bs) (mapOf bs)).2.1
        failed := (runLoop resps 0 (batchesOf bs) (mapOf bs)).2.2 } := by
  rw [processUnprocessedBookmarks]
  simp only [he, if_false]
  rfl

theorem runLoop_failed_iff (resps : Nat → CallOutcome) :
    ∀ (bl : List (List BookmarkItem)) (i : Nat) (m : List (String × BookmarkItem)),
      ((runLoop resps i bl m).2.2 = true ↔
        ∃ d, d < bl.length ∧ callItems (resps (i + d)) = none) ∧
      ((runLoop resps i bl m).2.2 = false → (runLoop resps i bl m).2.1 = bl.length) := by
  intro bl
  induction bl with
  | nil =>
    intro i m
    refine ⟨⟨fun h => (nomatch h), ?_⟩, fun _ => rfl⟩
    rintro ⟨d, hd, _⟩
    simp at hd
  | cons batch rest ih =>
    intro i m
    rcases hcall : callItems (resps i) with _ | optItems
    · have hr : runLoop resps i (batch :: rest) m = ([], 1, true) := by
        rw [runLoop, hcall]
      rw [hr]
      refine ⟨⟨fun _ => ⟨0, by simp, by rw [Nat.add_zero]; exact hcall⟩, fun _ => rfl⟩,
        fun h => (nomatch h)⟩
    · have hr : runLoop resps i (batch :: rest) m =
          (mapValues (mergeBatch m batch (optItems.getD [])) ::
            (runLoop resps (i + 1) rest (mergeBatch m batch (optItems.getD []))).1,
           (runLoop resps (i + 1) rest (mergeBatch m batch (optItems.getD []))).2.1 + 1,
           (runLoop resps (i + 1) rest (mergeBatch m batch (optItems.getD []))).2.2) := by
        rw [runLoop, hcall]
      rw [hr]
      obtain ⟨ih1, ih2⟩ := ih (i + 1) (mergeBatch m batch (optItems.getD []))
      constructor
      · constructor
        · intro h
          rcases ih1.mp h with ⟨d, hd, hcd⟩
          refine ⟨d + 1, by simp only [List.length_cons]; omega, ?_⟩
          have he : i + (d + 1) = i + 1 + d := by omega
          rw [he]
          exact hcd
        · rintro ⟨d, hd, hcd⟩
          cases d with
          | zero =>
            rw [Nat.add_zero, hcall] at hcd
            cases hcd
          | succ d =>
            apply ih1.mpr
            refine ⟨d, by simp only [List.length_cons] at hd; omega, ?_⟩
            have he : i + 1 + d = i + (d + 1) := by omega
            rw [he]
            exact hcd
      · intro h
        have h2 := ih2 h
        simp only [List.length_cons]
        omega

/-- C7 (amended): a batch invocation is a hard failure — aborting the run via
the single catch — exactly when an exception reaches the catch: the service
call throws, the body is present but is not valid JSON, the body is the JSON
literal null, the parsed items member is a non-array (other than
null/undefined), or the items array contains a null element.  The two shape
deviations the source tolerates silently are an absent body (replaced by the
literal empty-items default) and a missing/null items member (the optional
chaining merges nothing and the run continues to the next batch); in
particular a run none of whose invocations hits an abort case attempts every
batch and never fails. -/
theorem run_abort_characterization (bs : List BookmarkItem) (resps : Nat → CallOutcome) :
    (∀ o : CallOutcome, callItems o = none ↔
      o = .thrown ∨ o = .body .invalid ∨ o = .body .nullBody ∨
      o = .body (.parsed .notArray) ∨
      ∃ elems, o = .body (.parsed (.array elems)) ∧ elems.any RespElem.isNull = true) ∧
    ((processUnprocessedBookmarks bs resps).failed = true ↔
      ∃ k, k < (batchesOf bs).length ∧ callItems (resps k) = none) ∧
    ((processUnprocessedBookmarks bs resps).failed = false →
      (processUnprocessedBookmarks bs resps).calls = (batchesOf bs).length) := by
  refine ⟨?_, ?_⟩
  · intro o
    rcases o with _ | b
    · simp [callItems]
    · rcases b with _ | _ | _ | items
      · simp [callItems]
      · simp [callItems]
      · simp [callItems]
      · rcases items with _ | _ | elems
        · simp [callItems]
        · simp [callItems]
        · simp only [callItems]
          by_cases hai : elems.any RespElem.isNull = true
          · rw [if_pos hai]
            constructor
            · intro _
              exact Or.inr (Or.inr (Or.inr (Or.inr ⟨elems, rfl, hai⟩)))
            · intro _
              rfl
          · rw [if_neg hai]
            constructor
            · intro hcon
              simp at hcon
            · rintro (h | h | h | h | ⟨elems2, he2, ha2⟩)
              · simp at h
              · simp at h
              · simp at h
              · simp at h
              · simp at he2
                subst he2
                exact absurd ha2 hai
  by_cases he : (bs.filter fun b => ! b.processed).isEmpty
  · have hb : batchesOf bs = [] := by
      rw [batchesOf, unprocessedOf, List.isEmpty_iff.mp he]
      rfl
    rw [processUnprocessedBookmarks_of_isEmpty he, hb]
    refine ⟨⟨fun h => (nomatch h), ?_⟩, fun _ => rfl⟩
    rintro ⟨k, hk, _⟩
    simp at hk
  · rw [processUnprocessedBookmarks_of_ne he]
    obtain ⟨h1, h2⟩ := runLoop_failed_iff resps (batchesOf bs) 0 (mapOf bs)
    refine ⟨⟨?_, ?_⟩, ?_⟩
    · intro h
      rcases h1.mp h with ⟨d, hd, hcd⟩
      exact ⟨d, hd, by rwa [Nat.zero_add] at hcd⟩
    · rintro ⟨k, hk, hck⟩
      exact h1.mpr ⟨k, hk, by rwa [Nat.zero_add]⟩
    · intro h
      exact h2 h

/-- A one-entry unprocessed catalog used in concrete runs. -/
def exEntryA : BookmarkItem := ⟨"a", "t", "u", none, none, none, false, 0⟩

/-- C7 counterexample: a response whose body is valid JSON but fails the
required items shape (here: a value whose items member is absent or null, so
the optional chaining short-circuits) is not treated as a hard batch
failure — the run completes without abort, merely leaving the batch
unmerged — and an absent body is likewise silently replaced by the
empty-items default instead of aborting. -/
theorem shape_deviation_not_failure :
    (processUnprocessedBookmarks [exEntryA] (fun _ => .body (.parsed .nullish))).failed = false ∧
    (processUnprocessedBookmarks [exEntryA] (fun _ => .body (.parsed .nullish))).calls = 1 ∧
    (processUnprocessedBookmarks [exEntryA] (fun _ => .body (.parsed .nullish))).catalog =
      [exEntryA] ∧
    (processUnprocessedBookmarks [exEntryA] (fun _ => .body .absent)).failed = false := by
  decide

theorem run_abort_characterization_witness :
    (processUnprocessedBookmarks [exEntryA] (fun _ => .body (.parsed (.array [])))).failed =
      false ∧
    (processUnprocessedBookmarks [exEntryA] (fun _ => .body (.parsed (.array [])))).calls =
      (batchesOf [exEntryA]).length :=
  ⟨by decide, (run_abort_characterization [exEntryA] _).2.2 (by decide)⟩

/-! ### Delete during a run: the commit clobbers the delete -/

/-- A processed entry used in the delete-during-run scenario. -/
def exEntryB : BookmarkItem :=
  ⟨"b", "t2", "u2", some "d2", some "Backend", some ["y"], true, 5⟩

/-- C1 (code bug): with catalog [exEntryA (unprocessed), exEntryB
(processed)], the user deletes entry "b" after the run has captured its
snapshot map and before the first batch's response is merged.  The run raises
no error, but the per-batch commit writes the snapshot map's values
wholesale, so the deleted entry "b" reappears in the catalog after the
commit — contradicting the claim that a mid-run delete is never resurrected. -/
theorem delete_during_run_resurrection :
    (∀ b ∈ deleteBookmark [exEntryA, exEntryB] "b", b.id ≠ "b") ∧
    (processUnprocessedBookmarks [exEntryA, exEntryB]
      (fun _ => .body (.parsed (.array
        [.item ⟨some "u", some "Frontend", some "d", some ["x"]⟩])))).failed = false ∧
    (∃ b ∈ runWithMidDelete [exEntryA, exEntryB] "b"
      (fun _ => .body (.parsed (.array
        [.item ⟨some "u", some "Frontend", some "d", some ["x"]⟩]))), b.id = "b") := by
  decide

/-! ### The snapshot map: membership and key lemmas -/

/-- Keys of the snapshot map, in order. -/
def mapKeys (m : List (String × BookmarkItem)) : List String :=
  m.map Prod.fst

theorem any_key_iff (m : List (String × BookmarkItem)) (k : String) :
    (m.any fun p => p.1 == k) = true ↔ k ∈ mapKeys m := by
  rw [List.any_eq_true, mapKeys]
  constructor
  · rintro ⟨p, hp, he⟩
    rw [← beq_iff_eq.mp he]
    exact List.mem_map_of_mem _ hp
  · intro h
    rcases List.mem_map.mp h with ⟨p, hp, he⟩
    exact ⟨p, hp, beq_iff_eq.mpr he⟩

theorem mem_mapSet_elim {m : List (String × BookmarkItem)} {k : String}
    {v : BookmarkItem} {p : String × BookmarkItem} (h : p ∈ mapSet m k v) :
    p = (k, v) ∨ p ∈ m := by
  rw [mapSet] at h
  by_cases hc : (m.any fun q => q.1 == k) = true
  · rw [if_pos hc] at h
    rcases List.mem_map.mp h with ⟨q, hq, hqe⟩
    by_cases hk : (q.1 == k) = true
    · left
      rw [← hqe, if_pos hk]
    · right
      rw [← hqe, if_neg hk]
      exact hq
  · rw [if_neg hc, List.mem_append, List.mem_singleton] at h
    exact h.symm

theorem mem_mapSet_of_ne {m : List (String × BookmarkItem)} {k : String}
    {v : BookmarkItem} {p : String × BookmarkItem} (hp : p ∈ m) (hne : p.1 ≠ k) :
    p ∈ mapSet m k v := by
  rw [mapSet]
  by_cases hc : (m.any fun q => q.1 == k) = true
  · rw [if_pos hc]
    refine List.mem_map.mpr ⟨p, hp, ?_⟩
    rw [if_neg (by simpa using hne)]
  · rw [if_neg hc]
    exact List.mem_append_left _ hp

theorem self_mem_mapSet (m : List (String × BookmarkItem)) (k : String)
    (v : BookmarkItem) : (k, v) ∈ mapSet m k v := by
  rw [mapSet]
  by_cases hc : (m.any fun q => q.1 == k) = true
  · rw [if_pos hc]
    rcases List.any_eq_true.mp hc with ⟨q, hq, hqk⟩
    exact List.mem_map.mpr ⟨q, hq, by rw [if_pos hqk]⟩
  · rw [if_neg hc]
    exact List.mem_append_right _ (List.mem_singleton_self _)

theorem mapKeys_mapSet_of_mem {m : List (String × BookmarkItem)} {k : String}
    (v : BookmarkItem) (hc : (m.any fun q => q.1 == k) = true) :
    mapKeys (mapSet m k v) = mapKeys m := by
  rw [mapSet, if_pos hc, mapKeys, mapKeys, List.map_map]
  apply List.map_congr_left
  intro p _
  by_cases hk : (p.1 == k) = true
  · simp only [Function.comp_apply, if_pos hk]
    exact (beq_iff_eq.mp hk).symm
  · simp only [Function.comp_apply, if_neg hk]

theorem mapKeys_nodup_mapSet {m : List (String × BookmarkItem)} (k : String)
    (v : BookmarkItem) (h : (mapKeys m).Nodup) : (mapKeys (mapSet m k v)).Nodup := by
  by_cases hc : (m.any fun q => q.1 == k) = true
  · rw [mapKeys_mapSet_of_mem v hc]
    exact h
  · rw [mapSet, if_neg hc, mapKeys, List.map_append, List.nodup_append]
    refine ⟨h, List.nodup_singleton k, ?_⟩
    intro a ha hb
    rw [List.map_singleton, List.mem_singleton] at hb
    subst hb
    exact hc ((any_key_iff m a).mpr ha)

/-! ### URL uniqueness (C2) -/

theorem mergeBatch_cons (m : List (String × BookmarkItem)) (batch : List BookmarkItem)
    (item : RespItem) (rest : List RespItem) :
    mergeBatch m batch (item :: rest) =
      mergeBatch
        (match batch.find? (fun b => item.url == some b.url) with
         | some original => mapSet m original.id (mergeEntry original item)
         | none => m)
        batch rest := rfl

/-- Every slot of the snapshot map traces back to a catalog entry with the
slot's key as its id and the slot value's url; keys are pairwise distinct. -/
def MapFromCatalog (s : List BookmarkItem) (m : List (String × BookmarkItem)) : Prop :=
  (mapKeys m).Nodup ∧ ∀ p ∈ m, ∃ b ∈ s, b.id = p.1 ∧ p.2.url = b.url

theorem mapFromCatalog_mapSet {s : List BookmarkItem} {m : List (String × BookmarkItem)}
    (h : MapFromCatalog s m) {k : String} {v : BookmarkItem}
    (hv : ∃ b ∈ s, b.id = k ∧ v.url = b.url) : MapFromCatalog s (mapSet m k v) := by
  obtain ⟨hnd, hmem⟩ := h
  refine ⟨mapKeys_nodup_mapSet k v hnd, ?_⟩
  intro p hp
  rcases mem_mapSet_elim hp with rfl | hp2
  · exact hv
  · exact hmem p hp2

theorem mapFromCatalog_foldl (s : List BookmarkItem) :
    ∀ (l : List BookmarkItem) (m : List (String × BookmarkItem)),
      (∀ b ∈ l, b ∈ s) → MapFromCatalog s m →
      MapFromCatalog s (l.foldl (fun m b => mapSet m b.id b) m) := by
  intro l
  induction l with
  | nil => intro m _ h; exact h
  | cons b t ih =>
    intro m hl h
    rw [List.foldl_cons]
    exact ih _ (fun x hx => hl x (List.mem_cons_of_mem _ hx))
      (mapFromCatalog_mapSet h ⟨b, hl b (List.mem_cons_self _ _), rfl, rfl⟩)

theorem mapFromCatalog_mapOf (s : List BookmarkItem) : MapFromCatalog s (mapOf s) :=
  mapFromCatalog_foldl s s [] (fun _ h => h)
    ⟨List.nodup_nil, fun p hp => absurd hp (List.not_mem_nil p)⟩

theorem mapFromCatalog_mergeBatch {s : List BookmarkItem} (batch : List BookmarkItem)
    (hb : ∀ b ∈ batch, b ∈ s) :
    ∀ (items : List RespItem) (m : List (String × BookmarkItem)),
      MapFromCatalog s m → MapFromCatalog s (mergeBatch m batch items) := by
  intro items
  induction items with
  | nil => intro m h; exact h
  | cons item rest ih =>
    intro m h
    rw [mergeBatch_cons]
    rcases hf : batch.find? (fun b => item.url == some b.url) with _ | original <;> rw [hf]
    · exact ih m h
    · refine ih _ (mapFromCatalog_mapSet h ?_)
      exact ⟨original, hb original (List.mem_of_find?_eq_some hf), rfl, rfl⟩

theorem urls_nodup_mapValues {s : List BookmarkItem} {m : List (String × BookmarkItem)}
    (h : MapFromCatalog s m) (hs : (urlsOf s).Nodup) : (urlsOf (mapValues m)).Nodup := by
  obtain ⟨hnd, hmem⟩ := h
  have hinj := List.inj_on_of_nodup_map (f := BookmarkItem.url) (l := s) hs
  have heq : urlsOf (mapValues m) = m.map fun p => p.2.url := by
    rw [urlsOf, mapValues, List.map_map]
    rfl
  rw [heq]
  have hkeys : m.Pairwise fun p q => p.1 ≠ q.1 := by
    rw [mapKeys] at hnd
    exact List.pairwise_map.mp hnd
  have hurls : m.Pairwise fun p q => p.2.url ≠ q.2.url := by
    refine hkeys.imp_of_mem ?_
    intro p q hp hq hpq hcon
    rcases hmem p hp with ⟨bp, hbp, hbpi, hbpu⟩
    rcases hmem q hq with ⟨bq, hbq, hbqi, hbqu⟩
    have hub : bp.url = bq.url := by rw [← hbpu, ← hbqu, hcon]
    have : bp = bq := hinj hbp hbq hub
    exact hpq (by rw [← hbpi, ← hbqi, this])
  exact List.pairwise_map.mpr hurls

theorem urls_nodup_parse {bs : List BookmarkItem} {links : List Candidate}
    (h : (urlsOf bs).Nodup) (hl : DistinctImport links) :
    (urlsOf (parseBookmarksHTML bs links)).Nodup := by
  rw [parseBookmarksHTML_eq, urlsOf, List.map_append, List.nodup_append]
  refine ⟨h, ?_, ?_⟩
  · have hsub := (List.filter_sublist (p := fun b => ! bs.any fun e => e.url == b.url)
      ((links.take 50).map mkImportEntry)).map BookmarkItem.url
    refine hsub.nodup ?_
    have : List.map BookmarkItem.url ((links.take 50).map mkImportEntry) =
        (links.take 50).map Candidate.url := urlsOf_mkImport _
    rw [this]
    exact hl
  · intro u hu1 hu2
    rcases List.mem_map.mp hu2 with ⟨b, hb, rfl⟩
    obtain ⟨_, hcond⟩ := List.mem_filter.mp hb
    rw [Bool.not_eq_true'] at hcond
    rcases List.mem_map.mp hu1 with ⟨e, he, heq⟩
    have : (bs.any fun e => e.url == b.url) = true :=
      List.any_eq_true.mpr ⟨e, he, beq_iff_eq.mpr heq⟩
    rw [this] at hcond
    cases hcond

theorem urls_nodup_delete {bs : List BookmarkItem} (h : (urlsOf bs).Nodup) (x : String) :
    (urlsOf (deleteBookmark bs x)).Nodup :=
  ((List.filter_sublist bs).map BookmarkItem.url).nodup h

theorem mem_of_mem_buildBatches {l : List BookmarkItem} {bt : List BookmarkItem}
    {b : BookmarkItem} (hbt : bt ∈ buildBatches l) (hb : b ∈ bt) : b ∈ l := by
  have hmem : b ∈ (buildBatches l).flatten := List.mem_flatten.mpr ⟨bt, hbt, hb⟩
  rwa [buildBatches_flatten] at hmem

theorem runLoop_commits_inv (resps : Nat → CallOutcome) (s : List BookmarkItem) :
    ∀ (bl : List (List BookmarkItem)) (i : Nat) (m : List (String × BookmarkItem)),
      MapFromCatalog s m → (∀ bt ∈ bl, ∀ b ∈ bt, b ∈ s) →
      ∀ c ∈ (runLoop resps i bl m).1,
        ∃ m2, MapFromCatalog s m2 ∧ c = mapValues m2 := by
  intro bl
  induction bl with
  | nil =>
    intro i m _ _ c hc
    exact absurd hc (List.not_mem_nil c)
  | cons batch rest ih =>
    intro i m hm hbl c hc
    rcases hcall : callItems (resps i) with _ | optItems
    · rw [show runLoop resps i (batch :: rest) m = ([], 1, true) from by
        rw [runLoop, hcall]] at hc
      exact absurd hc (List.not_mem_nil c)
    · rw [show runLoop resps i (batch :: rest) m =
          (mapValues (mergeBatch m batch (optItems.getD [])) ::
            (runLoop resps (i + 1) rest (mergeBatch m batch (optItems.getD []))).1,
           (runLoop resps (i + 1) rest (mergeBatch m batch (optItems.getD []))).2.1 + 1,
           (runLoop resps (i + 1) rest (mergeBatch m batch (optItems.getD []))).2.2) from by
        rw [runLoop, hcall]] at hc
      have hm2 : MapFromCatalog s (mergeBatch m batch (optItems.getD [])) :=
        mapFromCatalog_mergeBatch batch (hbl batch (List.mem_cons_self _ _)) _ m hm
      rcases List.mem_cons.mp hc with rfl | hc2
      · exact ⟨_, hm2, rfl⟩
      · exact ih (i + 1) _ hm2 (fun bt hbt => hbl bt (List.mem_cons_of_mem _ hbt)) c hc2

theorem urls_nodup_commit {s : List BookmarkItem} (hs : (urlsOf s).Nodup)
    (resps : Nat → CallOutcome) {c : List BookmarkItem}
    (hc : c ∈ (processUnprocessedBookmarks s resps).commits) : (urlsOf c).Nodup := by
  by_cases he : (s.filter fun b => ! b.processed).isEmpty
  · rw [processUnprocessedBookmarks_of_isEmpty he] at hc
    exact absurd hc (List.not_mem_nil c)
  · rw [processUnprocessedBookmarks_of_ne he] at hc
    have hbl : ∀ bt ∈ batchesOf s, ∀ b ∈ bt, b ∈ s := by
      intro bt hbt b hb
      exact List.mem_of_mem_filter (mem_of_mem_buildBatches hbt hb)
    rcases runLoop_commits_inv resps s (batchesOf s) 0 (mapOf s)
      (mapFromCatalog_mapOf s) hbl c hc with ⟨m2, hm2, rfl⟩
    exact urls_nodup_mapValues hm2 hs

/-- C2 (amended): every catalog state reachable from the empty catalog via
imports whose consumed candidates have pairwise-distinct urls, per-batch
enrichment commits, and deletes has pairwise-distinct entry urls.  (The
distinctness restriction on imports is forced: the source deduplicates
candidates only against the pre-existing catalog, so an import carrying a
repeated url breaks uniqueness — see the counterexample.) -/
theorem reach_urls_nodup (s : List BookmarkItem)
    (h : Reach DistinctImport AnyResp s) : (urlsOf s).Nodup := by
  induction h with
  | start => exact List.nodup_nil
  | imp s cands _ himp ih => exact urls_nodup_parse ih himp
  | commit s c resps _ _ hc ih => exact urls_nodup_commit ih resps hc
  | del s x _ ih => exact urls_nodup_delete ih x

theorem reach_urls_nodup_witness :
    DistinctImport [⟨"a", "t", "u1", 0⟩, ⟨"b", "t", "u2", 0⟩] ∧
    (urlsOf (parseBookmarksHTML [] [⟨"a", "t", "u1", 0⟩, ⟨"b", "t", "u2", 0⟩])).Nodup :=
  ⟨by unfold DistinctImport; decide,
    reach_urls_nodup _ (Reach.imp [] _ Reach.start (by unfold DistinctImport; decide))⟩

/-- C2 counterexample: one import whose candidate sequence repeats the url
"u" reaches — via the very operations the claim quantifies over — a catalog
in which two entries share that url. -/
theorem reach_urls_counterexample :
    Reach AnyImport AnyResp (parseBookmarksHTML [] [⟨"a", "t", "u", 0⟩, ⟨"b", "t", "u", 0⟩]) ∧
    ¬ (urlsOf (parseBookmarksHTML [] [⟨"a", "t", "u", 0⟩, ⟨"b", "t", "u", 0⟩])).Nodup :=
  ⟨Reach.imp [] _ Reach.start trivial, by decide⟩

/-! ### Processed-implies-complete (C4) -/

/-- A response item with all three enrichment fields present and non-empty. -/
def RespItemComplete (item : RespItem) : Prop :=
  (∃ c, item.category = some c ∧ c ≠ "") ∧
  (∃ d, item.description = some d ∧ d ≠ "") ∧
  (∃ ts, item.tags = some ts ∧ ts ≠ [])

/-- Every processed slot of the snapshot map is completely enriched. -/
def SlotsComplete (m : List (String × BookmarkItem)) : Prop :=
  ∀ p ∈ m, p.2.processed = true → EntryComplete p.2

theorem slotsComplete_mapSet {m : List (String × BookmarkItem)} (h : SlotsComplete m)
    {k : String} {v : BookmarkItem} (hv : v.processed = true → EntryComplete v) :
    SlotsComplete (mapSet m k v) := by
  intro p hp
  rcases mem_mapSet_elim hp with rfl | hp2
  · exact hv
  · exact h p hp2

theorem slotsComplete_mapOf {s : List BookmarkItem} (hs : CatalogComplete s) :
    SlotsComplete (mapOf s) := by
  have hgen : ∀ (l : List BookmarkItem) (m : List (String × BookmarkItem)),
      (∀ b ∈ l, b ∈ s) → SlotsComplete m →
      SlotsComplete (l.foldl (fun m b => mapSet m b.id b) m) := by
    intro l
    induction l with
    | nil => intro m _ h; exact h
    | cons b t ih =>
      intro m hl h
      rw [List.foldl_cons]
      refine ih _ (fun x hx => hl x (List.mem_cons_of_mem _ hx)) ?_
      exact slotsComplete_mapSet h (hs b (hl b (List.mem_cons_self _ _)))
  exact hgen s [] (fun _ h => h) (fun p hp => absurd hp (List.not_mem_nil p))

theorem slotsComplete_mergeBatch (batch : List BookmarkItem) :
    ∀ (items : List RespItem) (m : List (String × BookmarkItem)),
      (∀ item ∈ items, RespItemComplete item) → SlotsComplete m →
      SlotsComplete (mergeBatch m batch items) := by
  intro items
  induction items with
  | nil => intro m _ h; exact h
  | cons item rest ih =>
    intro m hitems h
    rw [mergeBatch_cons]
    rcases hf : batch.find? (fun b => item.url == some b.url) with _ | original <;> rw [hf]
    · exact ih m (fun it h2 => hitems it (List.mem_cons_of_mem _ h2)) h
    · refine ih _ (fun it h2 => hitems it (List.mem_cons_of_mem _ h2))
        (slotsComplete_mapSet h ?_)
      intro _
      exact hitems item (List.mem_cons_self _ _)

theorem runLoop_commits_complete (resps : Nat → CallOutcome) (hr : CompleteResp resps) :
    ∀ (bl : List (List BookmarkItem)) (i : Nat) (m : List (String × BookmarkItem)),
      SlotsComplete m → ∀ c ∈ (runLoop resps i bl m).1, CatalogComplete c := by
  intro bl
  induction bl with
  | nil =>
    intro i m _ c hc
    exact absurd hc (List.not_mem_nil c)
  | cons batch rest ih =>
    intro i m hm c hc
    rcases hcall : callItems (resps i) with _ | optItems
    · rw [show runLoop resps i (batch :: rest) m = ([], 1, true) from by
        rw [runLoop, hcall]] at hc
      exact absurd hc (List.not_mem_nil c)
    · rw [show runLoop resps i (batch :: rest) m =
          (mapValues (mergeBatch m batch (optItems.getD [])) ::
            (runLoop resps (i + 1) rest (mergeBatch m batch (optItems.getD []))).1,
           (runLoop resps (i + 1) rest (mergeBatch m batch (optItems.getD []))).2.1 + 1,
           (runLoop resps (i + 1) rest (mergeBatch m batch (optItems.getD []))).2.2) from by
        rw [runLoop, hcall]] at hc
      have hit : ∀ item ∈ optItems.getD [], RespItemComplete item := by
        rcases optItems with _ | its
        · intro it h2
          exact absurd h2 (List.not_mem_nil it)
        · exact hr i its hcall
      have hm2 := slotsComplete_mergeBatch batch _ m hit hm
      rcases List.mem_cons.mp hc with rfl | hc2
      · intro b hb hbp
        rcases List.mem_map.mp hb with ⟨p, hp, rfl⟩
        exact hm2 p hp hbp
      · exact ih (i + 1) _ hm2 c hc2

theorem catalogComplete_parse {s : List BookmarkItem} (hs : CatalogComplete s)
    (links : List Candidate) : CatalogComplete (parseBookmarksHTML s links) := by
  intro b hb hbp
  rw [parseBookmarksHTML_eq] at hb
  rcases List.mem_append.mp hb with hb1 | hb2
  · exact hs b hb1 hbp
  · rcases List.mem_map.mp (List.mem_of_mem_filter hb2) with ⟨cand, _, rfl⟩
    cases hbp

/-- C4 (amended): in every catalog state reachable from the empty catalog by
imports, per-batch enrichment commits and deletes, if every item of every
successfully parsed service response carried a non-empty category, a
non-empty description and a non-empty tag list, then every processed entry
has category, description and tags all present and non-empty — the merge sets
the three fields together with the processed flag.  (The restriction on
responses is forced: the source copies the fields of the cast, unvalidated
response item verbatim, so a matching item lacking a field yields a processed
entry without it — see the counterexample.) -/
theorem reach_processed_complete (s : List BookmarkItem)
    (h : Reach AnyImport CompleteResp s) : CatalogComplete s := by
  induction h with
  | start => exact fun b hb => absurd hb (List.not_mem_nil b)
  | imp s cands _ _ ih => exact catalogComplete_parse ih cands
  | commit s c resps _ hresp hc ih =>
    by_cases he : (s.filter fun b => ! b.processed).isEmpty
    · rw [processUnprocessedBookmarks_of_isEmpty he] at hc
      exact absurd hc (List.not_mem_nil c)
    · rw [processUnprocessedBookmarks_of_ne he] at hc
      exact runLoop_commits_complete resps hresp (batchesOf s) 0 (mapOf s)
        (slotsComplete_mapOf ih) c hc
  | del s x _ ih =>
    intro b hb hbp
    exact ih b (List.mem_of_mem_filter hb) hbp

theorem reach_processed_complete_witness :
    CatalogComplete [⟨"a", "t", "u", some "d", some "Frontend", some ["x"], true, 0⟩] := by
  refine reach_processed_complete _
    (Reach.commit (parseBookmarksHTML [] [⟨"a", "t", "u", 0⟩]) _
      (fun _ => .body (.parsed (.array
        [.item ⟨some "u", some "Frontend", some "d", some ["x"]⟩])))
      (Reach.imp [] _ Reach.start trivial) ?_ (by decide))
  intro i items hit item hmem
  have hii : items = [(⟨some "u", some "Frontend", some "d", some ["x"]⟩ : RespItem)] := by
    have h2 : callItems (.body (.parsed (.array
        [.item (⟨some "u", some "Frontend", some "d", some ["x"]⟩ : RespItem)]))) =
        some (some items) := hit
    have hval : callItems (.body (.parsed (.array
        [.item (⟨some "u", some "Frontend", some "d", some ["x"]⟩ : RespItem)]))) =
        some (some [(⟨some "u", some "Frontend", some "d", some ["x"]⟩ : RespItem)]) := rfl
    rw [hval] at h2
    exact (Option.some.inj (Option.some.inj h2)).symm
  subst hii
  rw [List.mem_singleton] at hmem
  subst hmem
  exact ⟨⟨"Frontend", rfl, by decide⟩, ⟨"d", rfl, by decide⟩, ⟨["x"], rfl, by decide⟩⟩

/-- C4 counterexample: a reachable state (one import, then one enrichment
commit whose response item matches the entry's url but carries no category,
description or tags) contains an entry with processed = true and no
category. -/
theorem processed_incomplete_counterexample :
    Reach AnyImport AnyResp [⟨"a", "t", "u", none, none, none, true, 0⟩] ∧
    ∃ b ∈ ([⟨"a", "t", "u", none, none, none, true, 0⟩] : List BookmarkItem),
      b.processed = true ∧ b.category = none := by
  constructor
  · exact Reach.commit (parseBookmarksHTML [] [⟨"a", "t", "u", 0⟩]) _
      (fun _ => .body (.parsed (.array [.item ⟨some "u", none, none, none⟩])))
      (Reach.imp [] _ Reach.start trivial) trivial (by decide)
  · exact ⟨_, List.mem_singleton_self _, rfl, rfl⟩

/-! ### Partial-failure durability (C3): tracking keys through the merges -/

/-- The map holds, under key `x`, an entry with id `x` already marked
processed. -/
def KeyProcessed (m : List (String × BookmarkItem)) (x : String) : Prop :=
  ∃ p ∈ m, p.1 = x ∧ p.2.id = x ∧ p.2.processed = true

theorem find?_url_eq {batch : List BookmarkItem}
    (hnd : (batch.map BookmarkItem.url).Nodup) {b : BookmarkItem} (hb : b ∈ batch)
    {item : RespItem} (hit : item.url = some b.url) :
    batch.find? (fun x => item.url == some x.url) = some b := by
  rcases hf : batch.find? (fun x => item.url == some x.url) with _ | y
  · exfalso
    apply List.find?_eq_none.mp hf b hb
    rw [hit]
    exact beq_iff_eq.mpr rfl
  · have hy := List.find?_some hf
    have hymem := List.mem_of_find?_eq_some hf
    rw [hit] at hy
    have hurl : b.url = y.url := Option.some.inj (beq_iff_eq.mp hy)
    rw [hf]
    exact congrArg some (List.inj_on_of_nodup_map hnd hymem hb hurl.symm)

theorem keyProcessed_mergeBatch (batch : List BookmarkItem) :
    ∀ (items : List RespItem) (m : List (String × BookmarkItem)) (x : String),
      KeyProcessed m x → KeyProcessed (mergeBatch m batch items) x := by
  intro items
  induction items with
  | nil => intro m x h; exact h
  | cons item rest ih =>
    intro m x h
    rw [mergeBatch_cons]
    rcases hf : batch.find? (fun b => item.url == some b.url) with _ | original <;> rw [hf]
    · exact ih m x h
    · apply ih
      rcases h with ⟨p, hp, h1, h2, h3⟩
      by_cases hpk : p.1 = original.id
      · have hx : original.id = x := hpk.symm.trans h1
        subst hx
        exact ⟨(original.id, mergeEntry original item), self_mem_mapSet _ _ _, rfl, rfl, rfl⟩
      · exact ⟨p, mem_mapSet_of_ne hp hpk, h1, h2, h3⟩

theorem keyProcessed_mergeBatch_covered (batch : List BookmarkItem)
    (hnd : (batch.map BookmarkItem.url).Nodup) {b : BookmarkItem} (hb : b ∈ batch) :
    ∀ (items : List RespItem) (m : List (String × BookmarkItem)),
      (∃ item ∈ items, item.url = some b.url) →
      KeyProcessed (mergeBatch m batch items) b.id := by
  intro items
  induction items with
  | nil =>
    rintro m ⟨it, h1, _⟩
    exact absurd h1 (List.not_mem_nil it)
  | cons item rest ih =>
    rintro m ⟨it, hitm, hiturl⟩
    rw [mergeBatch_cons]
    by_cases hcase : item.url = some b.url
    · rw [find?_url_eq hnd hb hcase]
      exact keyProcessed_mergeBatch batch rest _ b.id
        ⟨(b.id, mergeEntry b item), self_mem_mapSet _ _ _, rfl, rfl, rfl⟩
    · rcases List.mem_cons.mp hitm with rfl | hrest
      · exact absurd hiturl hcase
      · rcases hf : batch.find? (fun x => item.url == some x.url) with _ | original <;> rw [hf]
        · exact ih m ⟨it, hrest, hiturl⟩
        · exact ih _ ⟨it, hrest, hiturl⟩

theorem keyIntact_mergeBatch (batch : List BookmarkItem) :
    ∀ (items : List RespItem) (m : List (String × BookmarkItem)) (b : BookmarkItem),
      (b.id, b) ∈ m → (∀ x ∈ batch, x.id ≠ b.id) →
      (b.id, b) ∈ mergeBatch m batch items := by
  intro items
  induction items with
  | nil => intro m b h _; exact h
  | cons item rest ih =>
    intro m b h hdis
    rw [mergeBatch_cons]
    rcases hf : batch.find? (fun x => item.url == some x.url) with _ | original <;> rw [hf]
    · exact ih m b h hdis
    · refine ih _ b ?_ hdis
      exact mem_mapSet_of_ne h
        (fun hcon => hdis original (List.mem_of_find?_eq_some hf) hcon.symm)

theorem foldl_mapSet_fresh :
    ∀ (l : List BookmarkItem) (m : List (String × BookmarkItem)),
      (l.map BookmarkItem.id).Nodup →
      (∀ b ∈ l, b.id ∉ mapKeys m) →
      l.foldl (fun m b => mapSet m b.id b) m = m ++ l.map fun b => (b.id, b) := by
  intro l
  induction l with
  | nil => intro m _ _; rw [List.foldl_nil, List.map_nil, List.append_nil]
  | cons b t ih =>
    intro m hnd hfresh
    rw [List.foldl_cons]
    have hany : ¬ (m.any fun p => p.1 == b.id) = true := by
      intro hcon
      exact hfresh b (List.mem_cons_self _ _) ((any_key_iff m b.id).mp hcon)
    have h1 : mapSet m b.id b = m ++ [(b.id, b)] := by
      rw [mapSet, if_neg hany]
    rw [h1, ih (m ++ [(b.id, b)]) ?_ ?_]
    · rw [List.append_assoc]
      rfl
    · rw [List.map_cons, List.nodup_cons] at hnd
      exact hnd.2
    · intro x hx hkey
      rw [mapKeys, List.map_append, List.mem_append] at hkey
      rcases hkey with hk1 | hk2
      · exact hfresh x (List.mem_cons_of_mem _ hx) hk1
      · rw [List.map_singleton, List.mem_singleton] at hk2
        have hk3 : x.id = b.id := hk2
        rw [List.map_cons, List.nodup_cons] at hnd
        apply hnd.1
        rw [← hk3]
        exact List.mem_map_of_mem _ hx

theorem mapOf_eq_of_nodup {s : List BookmarkItem}
    (hids : (s.map BookmarkItem.id).Nodup) : mapOf s = s.map fun b => (b.id, b) := by
  rw [mapOf, foldl_mapSet_fresh s [] hids
    (fun b _ h => absurd h (List.not_mem_nil _)), List.nil_append]

theorem getLast?_cons_of_ne_nil {α : Type} {a : α} {l : List α} (h : l ≠ []) :
    (a :: l).getLast? = l.getLast? := by
  cases l with
  | nil => exact absurd rfl h
  | cons b t => rw [List.getLast?_cons_cons]

theorem runLoop_partial (resps : Nat → CallOutcome) :
    ∀ (k : Nat) (bl : List (List BookmarkItem)) (i : Nat)
      (m : List (String × BookmarkItem)),
      k < bl.length →
      (∀ d, d < k → ∃ items, callItems (resps (i + d)) = some (some items) ∧
        ∀ b ∈ bl.getD d [], ∃ item ∈ items, item.url = some b.url) →
      callItems (resps (i + k)) = none →
      (∀ bt ∈ bl, (bt.map BookmarkItem.url).Nodup) →
      ∃ mF,
        (runLoop resps i bl m).2.1 = k + 1 ∧
        (runLoop resps i bl m).2.2 = true ∧
        (runLoop resps i bl m).1.length = k ∧
        (0 < k → (runLoop resps i bl m).1.getLast? = some (mapValues mF)) ∧
        (k = 0 → mF = m) ∧
        (∀ x, KeyProcessed m x → KeyProcessed mF x) ∧
        (∀ b : BookmarkItem, (b.id, b) ∈ m →
          (∀ d, d < k → ∀ x ∈ bl.getD d [], x.id ≠ b.id) → (b.id, b) ∈ mF) ∧
        (∀ d, d < k → ∀ b ∈ bl.getD d [], KeyProcessed mF b.id) := by
  intro k
  induction k with
  | zero =>
    intro bl i m hk hsucc hfail hnd
    rcases bl with _ | ⟨batch, rest⟩
    · simp at hk
    · rw [Nat.add_zero] at hfail
      have hr : runLoop resps i (batch :: rest) m = ([], 1, true) := by
        rw [runLoop, hfail]
      refine ⟨m, ?_, ?_, ?_, ?_, fun _ => rfl, fun x h => h, fun b h _ => h, ?_⟩
      · rw [hr]
      · rw [hr]
      · rw [hr]; rfl
      · intro h; exact absurd h (by omega)
      · intro d hd; exact absurd hd (by omega)
  | succ k ih =>
    intro bl i m hk hsucc hfail hnd
    rcases bl with _ | ⟨batch, rest⟩
    · simp at hk
    · obtain ⟨items0, hcall0, hcov0⟩ := hsucc 0 (Nat.succ_pos k)
      rw [Nat.add_zero] at hcall0
      have hstep : runLoop resps i (batch :: rest) m =
          (mapValues (mergeBatch m batch items0) ::
            (runLoop resps (i + 1) rest (mergeBatch m batch items0)).1,
           (runLoop resps (i + 1) rest (mergeBatch m batch items0)).2.1 + 1,
           (runLoop resps (i + 1) rest (mergeBatch m batch items0)).2.2) := by
        rw [runLoop, hcall0]
        rfl
      have hsucc2 : ∀ d, d < k →
          ∃ items, callItems (resps (i + 1 + d)) = some (some items) ∧
          ∀ b ∈ rest.getD d [], ∃ item ∈ items, item.url = some b.url := by
        intro d hd
        obtain ⟨items, hc, hcov⟩ := hsucc (d + 1) (by omega)
        refine ⟨items, ?_, ?_⟩
        · have he : i + (d + 1) = i + 1 + d := by omega
          rw [← he]
          exact hc
        · intro b hb
          apply hcov b
          rw [List.getD_cons_succ]
          exact hb
      have hfail2 : callItems (resps (i + 1 + k)) = none := by
        have he : i + (k + 1) = i + 1 + k := by omega
        rw [← he]
        exact hfail
      obtain ⟨mF, hcalls2, hfailed2, hlen2, hlast2, hzero2, hpres2, hintact2, hestab2⟩ :=
        ih rest (i + 1) (mergeBatch m batch items0)
          (by simp only [List.length_cons] at hk; omega) hsucc2 hfail2
          (fun bt hbt => hnd bt (List.mem_cons_of_mem _ hbt))
      refine ⟨mF, ?_, ?_, ?_, ?_, ?_, ?_, ?_, ?_⟩
      · rw [hstep]
        show (runLoop resps (i + 1) rest (mergeBatch m batch items0)).2.1 + 1 = k + 1 + 1
        rw [hcalls2]
      · rw [hstep]
        exact hfailed2
      · rw [hstep]
        show (mapValues (mergeBatch m batch items0) ::
          (runLoop resps (i + 1) rest (mergeBatch m batch items0)).1).length = k + 1
        rw [List.length_cons, hlen2]
      · intro _
        rw [hstep]
        show (mapValues (mergeBatch m batch items0) ::
          (runLoop resps (i + 1) rest (mergeBatch m batch items0)).1).getLast? =
          some (mapValues mF)
        rcases Nat.eq_zero_or_pos k with hk0 | hk0
        · have hnil : (runLoop resps (i + 1) rest (mergeBatch m batch items0)).1 = [] :=
            List.length_eq_zero.mp (by rw [hlen2, hk0])
          rw [hnil, hzero2 hk0, List.getLast?_singleton]
        · have hne : (runLoop resps (i + 1) rest (mergeBatch m batch items0)).1 ≠ [] := by
            intro hcon
            rw [hcon] at hlen2
            simp at hlen2
            omega
          rw [getLast?_cons_of_ne_nil hne]
          exact hlast2 hk0
      · intro hcon
        exact absurd hcon (Nat.succ_ne_zero k)
      · intro x h
        exact hpres2 x (keyProcessed_mergeBatch batch items0 m x h)
      · intro b hb hdis
        refine hintact2 b ?_ ?_
        · exact keyIntact_mergeBatch batch items0 m b hb
            (fun x hx => hdis 0 (Nat.succ_pos k) x hx)
        · intro d hd x hx
          apply hdis (d + 1) (by omega) x
          rw [List.getD_cons_succ]
          exact hx
      · intro d hd b hb
        cases d with
        | zero =>
          have hbb : b ∈ batch := hb
          obtain ⟨item, hitm, hiturl⟩ := hcov0 b hb
          exact hpres2 b.id (keyProcessed_mergeBatch_covered batch
            (hnd batch (List.mem_cons_self _ _)) hbb items0 m ⟨item, hitm, hiturl⟩)
        | succ d =>
          rw [List.getD_cons_succ] at hb
          exact hestab2 d (by omega) b hb

/-- C3 (amended): for a well-formed catalog (distinct ids, distinct urls —
the spec's own invariants), if batches 0..k-1 succeed with responses that
correlate every entry of their batch by url and batch k raises a hard
failure, then every entry of batches 0..k-1 is committed with
processed = true in the resulting catalog, every entry of batches k..n is
still present unchanged with processed = false, exactly k+1 service calls
are made (no batch after k is attempted), and exactly one failure
notification is surfaced for the whole run.  (The correlation proviso is
forced: a successful batch whose response omits an entry leaves that entry
unprocessed — see the counterexample.) -/
theorem partial_failure_durability (bs : List BookmarkItem) (resps : Nat → CallOutcome)
    (k : Nat)
    (hids : (bs.map BookmarkItem.id).Nodup)
    (hurls : (bs.map BookmarkItem.url).Nodup)
    (hk : k < (batchesOf bs).length)
    (hsucc : ∀ d, d < k → ∃ items, callItems (resps d) = some (some items) ∧
      ∀ b ∈ (batchesOf bs).getD d [], ∃ item ∈ items, item.url = some b.url)
    (hfail : callItems (resps k) = none) :
    (∀ d, d < k → ∀ b ∈ (batchesOf bs).getD d [],
      ∃ b2 ∈ (processUnprocessedBookmarks bs resps).catalog,
        b2.id = b.id ∧ b2.processed = true) ∧
    (∀ j, k ≤ j → ∀ b ∈ (batchesOf bs).getD j [],
      b ∈ (processUnprocessedBookmarks bs resps).catalog ∧ b.processed = false) ∧
    (processUnprocessedBookmarks bs resps).calls = k + 1 ∧
    alertCount (processUnprocessedBookmarks bs resps).failed = 1 := by
  have hne : ¬ (bs.filter fun b => ! b.processed).isEmpty = true := by
    intro hcon
    rw [batchesOf, unprocessedOf, List.isEmpty_iff.mp hcon] at hk
    exact absurd hk (Nat.not_lt_zero k)
  have hbatchnd : ∀ bt ∈ batchesOf bs, (bt.map BookmarkItem.url).Nodup := by
    intro bt hbt
    have hunp : ((unprocessedOf bs).map BookmarkItem.url).Nodup :=
      ((List.filter_sublist bs).map BookmarkItem.url).nodup hurls
    have hflat : ((batchesOf bs).map (List.map BookmarkItem.url)).flatten.Nodup := by
      rw [← List.map_flatten, batchesOf, buildBatches_flatten]
      exact hunp
    exact (List.nodup_flatten.mp hflat).1 _ (List.mem_map_of_mem _ hbt)
  have hidsunp : ((unprocessedOf bs).map BookmarkItem.id).Nodup :=
    ((List.filter_sublist bs).map BookmarkItem.id).nodup hids
  have hidflat : ((batchesOf bs).map (List.map BookmarkItem.id)).flatten.Nodup := by
    rw [← List.map_flatten, batchesOf, buildBatches_flatten]
    exact hidsunp
  have hpairs : List.Pairwise (fun bt1 bt2 : List BookmarkItem =>
      ∀ x ∈ bt1, ∀ y ∈ bt2, x.id ≠ y.id) (batchesOf bs) := by
    have hp := (List.nodup_flatten.mp hidflat).2
    rw [List.pairwise_map] at hp
    refine hp.imp ?_
    intro bt1 bt2 hdisj x hx y hy hcon
    apply hdisj (List.mem_map_of_mem _ hx)
    rw [hcon]
    exact List.mem_map_of_mem _ hy
  have hcross : ∀ d j, d < j → j < (batchesOf bs).length →
      ∀ x ∈ (batchesOf bs).getD d [], ∀ y ∈ (batchesOf bs).getD j [], x.id ≠ y.id := by
    intro d j hdj hj x hx y hy
    have hd : d < (batchesOf bs).length := lt_trans hdj hj
    rw [List.getD_eq_getElem _ _ hd] at hx
    rw [List.getD_eq_getElem _ _ hj] at hy
    exact List.pairwise_iff_get.mp hpairs ⟨d, hd⟩ ⟨j, hj⟩ hdj x hx y hy
  obtain ⟨mF, hcalls, hfailed, hclen, hlast, hzero, hpres, hintact, hestab⟩ :=
    runLoop_partial resps k (batchesOf bs) 0 (mapOf bs) hk
      (by intro d hd; rw [Nat.zero_add]; exact hsucc d hd)
      (by rw [Nat.zero_add]; exact hfail) hbatchnd
  have hcat0 : k = 0 → (processUnprocessedBookmarks bs resps).catalog = bs := by
    intro hk0
    rw [processUnprocessedBookmarks_of_ne hne]
    have hnil : (runLoop resps 0 (batchesOf bs) (mapOf bs)).1 = [] :=
      List.length_eq_zero.mp (by rw [hclen, hk0])
    show (runLoop resps 0 (batchesOf bs) (mapOf bs)).1.getLast?.getD bs = bs
    rw [hnil]
    rfl
  have hcatpos : 0 < k →
      (processUnprocessedBookmarks bs resps).catalog = mapValues mF := by
    intro hk0
    rw [processUnprocessedBookmarks_of_ne hne]
    show (runLoop resps 0 (batchesOf bs) (mapOf bs)).1.getLast?.getD bs = mapValues mF
    rw [hlast hk0]
    rfl
  refine ⟨?_, ?_, ?_, ?_⟩
  · intro d hd b hb
    obtain ⟨p, hp, h1, h2, h3⟩ := hestab d hd b hb
    refine ⟨p.2, ?_, h2, h3⟩
    rw [hcatpos (by omega)]
    exact List.mem_map_of_mem _ hp
  · intro j hj b hb
    by_cases hjl : j < (batchesOf bs).length
    · have hbunp : b ∈ unprocessedOf bs := by
        have hbmem : b ∈ (batchesOf bs).getD j [] := hb
        rw [List.getD_eq_getElem _ _ hjl] at hbmem
        exact mem_of_mem_buildBatches (List.getElem_mem hjl) hbmem
      have hproc : b.processed = false := by
        have := (List.mem_filter.mp hbunp).2
        rwa [Bool.not_eq_true'] at this
      refine ⟨?_, hproc⟩
      rcases Nat.eq_zero_or_pos k with hk0 | hk0
      · rw [hcat0 hk0]
        exact List.mem_of_mem_filter hbunp
      · rw [hcatpos hk0]
        have hb0 : (b.id, b) ∈ mapOf bs := by
          rw [mapOf_eq_of_nodup hids]
          exact List.mem_map_of_mem _ (List.mem_of_mem_filter hbunp)
        have hbF : (b.id, b) ∈ mF := by
          refine hintact b hb0 ?_
          intro d hd x hx
          exact hcross d j (by omega) hjl x hx b hb
        exact List.mem_map_of_mem _ hbF
    · rw [List.getD_eq_default _ _ (by omega)] at hb
      exact absurd hb (List.not_mem_nil b)
  · rw [processUnprocessedBookmarks_of_ne hne]
    exact hcalls
  · rw [processUnprocessedBookmarks_of_ne hne]
    show alertCount (runLoop resps 0 (batchesOf bs) (mapOf bs)).2.2 = 1
    rw [hfailed]
    rfl

/-- Eleven unprocessed entries with distinct ids and urls: two batches
(ten entries, then one). -/
def exCatalog11 : List BookmarkItem :=
  [⟨"i1", "t", "v1", none, none, none, false, 0⟩,
   ⟨"i2", "t", "v2", none, none, none, false, 0⟩,
   ⟨"i3", "t", "v3", none, none, none, false, 0⟩,
   ⟨"i4", "t", "v4", none, none, none, false, 0⟩,
   ⟨"i5", "t", "v5", none, none, none, false, 0⟩,
   ⟨"i6", "t", "v6", none, none, none, false, 0⟩,
   ⟨"i7", "t", "v7", none, none, none, false, 0⟩,
   ⟨"i8", "t", "v8", none, none, none, false, 0⟩,
   ⟨"i9", "t", "v9", none, none, none, false, 0⟩,
   ⟨"i10", "t", "v10", none, none, none, false, 0⟩,
   ⟨"i11", "t", "v11", none, none, none, false, 0⟩]

/-- A well-shaped response covering all ten urls of the first batch. -/
def exItems10 : List RespItem :=
  [⟨some "v1", some "C", some "d", some ["x"]⟩,
   ⟨some "v2", some "C", some "d", some ["x"]⟩,
   ⟨some "v3", some "C", some "d", some ["x"]⟩,
   ⟨some "v4", some "C", some "d", some ["x"]⟩,
   ⟨some "v5", some "C", some "d", some ["x"]⟩,
   ⟨some "v6", some "C", some "d", some ["x"]⟩,
   ⟨some "v7", some "C", some "d", some ["x"]⟩,
   ⟨some "v8", some "C", some "d", some ["x"]⟩,
   ⟨some "v9", some "C", some "d", some ["x"]⟩,
   ⟨some "v10", some "C", some "d", some ["x"]⟩]

/-- Batch 1 succeeds with full coverage, batch 2 throws. -/
def exRespsC3 : Nat → CallOutcome :=
  fun i => if i = 0 then .body (.parsed (.array (exItems10.map RespElem.item))) else .thrown

theorem partial_failure_durability_witness :
    (exCatalog11.map BookmarkItem.id).Nodup ∧
    (exCatalog11.map BookmarkItem.url).Nodup ∧
    1 < (batchesOf exCatalog11).length ∧
    callItems (exRespsC3 1) = none ∧
    ((∀ d, d < 1 → ∀ b ∈ (batchesOf exCatalog11).getD d [],
      ∃ b2 ∈ (processUnprocessedBookmarks exCatalog11 exRespsC3).catalog,
        b2.id = b.id ∧ b2.processed = true) ∧
     (∀ j, 1 ≤ j → ∀ b ∈ (batchesOf exCatalog11).getD j [],
      b ∈ (processUnprocessedBookmarks exCatalog11 exRespsC3).catalog ∧
        b.processed = false) ∧
     (processUnprocessedBookmarks exCatalog11 exRespsC3).calls = 1 + 1 ∧
     alertCount (processUnprocessedBookmarks exCatalog11 exRespsC3).failed = 1) := by
  refine ⟨by decide, by decide, by decide, by decide, ?_⟩
  refine partial_failure_durability exCatalog11 exRespsC3 1 (by decide) (by decide)
    (by decide) ?_ (by decide)
  intro d hd
  have hd0 : d = 0 := by omega
  subst hd0
  exact ⟨exItems10, rfl, by decide⟩

/-- Batch 1 succeeds with a well-shaped but empty items list, batch 2
throws. -/
def exRespsEmpty : Nat → CallOutcome :=
  fun i => if i = 0 then .body (.parsed (.array [])) else .thrown

/-- C3 counterexample: batch 1's invocation succeeds (valid JSON of the right
shape, zero items), batch 2 raises a hard failure.  The run aborts after
attempting both batches, but no entry of batch 1 is processed — an entry is
only marked processed when the response correlates it by url — so the claim's
"all entries of batches 1..k-1 are committed with processed == true" fails. -/
theorem partial_failure_counterexample :
    (processUnprocessedBookmarks exCatalog11 exRespsEmpty).failed = true ∧
    (processUnprocessedBookmarks exCatalog11 exRespsEmpty).calls = 2 ∧
    (∃ b ∈ (batchesOf exCatalog11).getD 0 [],
      ∀ b2 ∈ (processUnprocessedBookmarks exCatalog11 exRespsEmpty).catalog,
        b2.id = b.id → b2.processed = false) := by
  decide
